import Mathlib

/-!
Shallow embedding of `src/main.js` (catalog-sniper): a poller that walks a
cursor-paginated catalog API, deduplicates items against a persisted JSON
document, and writes the merged result back.  Pure data and control flow are
translated directly; I/O effects (network responses, file contents, clock)
become explicit parameters.
-/

namespace CatalogSniper

/-- A raw sub-item reference of an upstream catalog item (`b` in
`item.bundledItems.forEach(b => ...)`).  `id` is `none` when the JS value is
absent/null. -/
structure SubItem where
  type : String
  id : Option Nat
deriving Repr, DecidableEq

/-- A raw upstream catalog item (`item` in `res.data.forEach`). -/
structure RawItem where
  id : Nat
  name : String
  bundledItems : Option (List SubItem)
deriving Repr, DecidableEq

/-- A persisted record as built in `fetchAPI`:
`{ id, name }` plus an optional `bundledItems` mapping from positional string
keys to lists of sub-item ids. -/
structure PersistedRecord where
  id : Nat
  name : String
  bundledItems : Option (List (String × List Nat))
deriving Repr, DecidableEq

/-- JS truthiness of `b.id` in `if (b.type !== "UserOutfit" && b.id)`:
absent/null and the number 0 are falsy, every other number is truthy. -/
def jsTruthyId : Option Nat → Bool
  | none => false
  | some n => n != 0

/-- The retention filter on sub-items: `b.type !== "UserOutfit" && b.id`. -/
def keepSub (b : SubItem) : Bool :=
  b.type != "UserOutfit" && jsTruthyId b.id

/-- `bundled[key] = bundled[key] || []; bundled[key].push(v)` on a JS object
modelled as an insertion-ordered association list: an existing key keeps its
position and gets `v` appended; a fresh key is inserted at the end. -/
def pushBucket (l : List (String × List Nat)) (key : String) (v : Nat) :
    List (String × List Nat) :=
  if key ∈ l.map Prod.fst then
    l.map (fun p => if p.1 = key then (p.1, p.2 ++ [v]) else p)
  else l ++ [(key, [v])]

/-- One step of the `item.bundledItems.forEach(b => ...)` loop in `fetchAPI`:
state is the `bundled` object together with the `counter` variable.  The
counter is read and incremented (`(counter++).toString()`) only when the
sub-item passes the retention filter. -/
def buildBundledStep (st : List (String × List Nat) × Nat) (b : SubItem) :
    List (String × List Nat) × Nat :=
  if keepSub b then (pushBucket st.1 (Nat.repr st.2) (b.id.getD 0), st.2 + 1)
  else st

/-- The record transformer inlined in `fetchAPI`'s else-branch: builds
`{ id, name }` and attaches `bundledItems` only when
`item.bundledItems?.length` is truthy and the built object is non-empty. -/
def transformItem (item : RawItem) : PersistedRecord :=
  let base : PersistedRecord := ⟨item.id, item.name, none⟩
  match item.bundledItems with
  | none => base
  | some subs =>
    if subs.length != 0 then
      let bundled := (subs.foldl buildBundledStep ([], 1)).1
      if bundled.length != 0 then ⟨item.id, item.name, some bundled⟩ else base
    else base

/-- The sub-items retained by the filter, in original order. -/
def retainedSubs (subs : List SubItem) : List SubItem :=
  subs.filter keepSub

/-- The dedup index (`existingData.ids`, a JS `Set`): modelled as a list
queried by membership.  `Set.prototype.add` is a no-op on present elements. -/
def addId (s : List Nat) (x : Nat) : List Nat :=
  if x ∈ s then s else x :: s

/-- `new Set(items.map(i => i.id))`. -/
def idsOfItems (items : List PersistedRecord) : List Nat :=
  items.foldl (fun s i => addId s i.id) []

/-- On-disk state of a target file, as `loadData` distinguishes it:
absent (`fs.existsSync` false), unreadable (read or `JSON.parse` throws), or
a parsed object whose `data` field may be missing. -/
inductive FileContent
  | absent
  | unreadable
  | parsed (data : Option (List PersistedRecord))
deriving Repr, DecidableEq

/-- `loadData(file)`: returns `{ items, ids }`; absent or unreadable content
falls through to `{ items: [], ids: new Set() }` (the catch logs and recovers,
nothing is raised), and a parsed object uses `content.data || []`. -/
def loadData : FileContent → List PersistedRecord × List Nat
  | FileContent.absent => ([], [])
  | FileContent.unreadable => ([], [])
  | FileContent.parsed d =>
    let items := d.getD []
    (items, idsOfItems items)

/-- The persisted document shape written by `saveData`. -/
structure CatalogDocument where
  keyword : Option String
  totalItems : Nat
  lastUpdate : String
  data : List PersistedRecord
deriving Repr, DecidableEq

/-- `saveData(items, file)`: the document written to disk; `now` stands for
`new Date().toISOString()`. -/
def saveData (items : List PersistedRecord) (now : String) : CatalogDocument :=
  { keyword := none
    totalItems := items.length
    lastUpdate := now
    data := items }

/-- Errors with which `fetchJSON` can reject. -/
inductive FetchErr
  | netErr (msg : String)
  | timeoutErr
  | httpStatus (status : Nat)
  | parseErr
deriving Repr, DecidableEq

/-- One page of the upstream payload: `res.data` (absent or not an array
modelled as `none`) and the optional `nextPageCursor`. -/
structure Page where
  data : Option (List RawItem)
  nextPageCursor : Option String
deriving Repr, DecidableEq

/-- What the network does on one `https.get` attempt: an `error` event on the
request, a response with a status code and a body (`none` when the body fails
`JSON.parse`), or nothing before the 30000 ms deadline fires. -/
inductive NetEvent
  | netErr (msg : String)
  | response (status : Nat) (body : Option Page)
  | timeout
deriving Repr, DecidableEq

/-- `tryFetch(attempt)` of `fetchJSON`, driven by the list of network events
of the successive attempts (an exhausted list means no response ever arrives,
so the 30 s timer fires).  Returns the settled promise together with the list
of backoff delays performed (`2000 * attempt` before each retry).  Only an
`error` event retries, and only while `attempt < retries`; a timeout, a
non-200 status and a parse failure reject at once. -/
def tryFetch (retries : Nat) : Nat → List NetEvent → Except FetchErr Page × List Nat
  | _, [] => (Except.error FetchErr.timeoutErr, [])
  | attempt, e :: rest =>
    match e with
    | NetEvent.timeout => (Except.error FetchErr.timeoutErr, [])
    | NetEvent.response status body =>
      if status != 200 then (Except.error (FetchErr.httpStatus status), [])
      else
        match body with
        | some p => (Except.ok p, [])
        | none => (Except.error FetchErr.parseErr, [])
    | NetEvent.netErr msg =>
      if attempt < retries then
        let r := tryFetch retries (attempt + 1) rest
        (r.1, 2000 * attempt :: r.2)
      else (Except.error (FetchErr.netErr msg), [])

/-- `fetchJSON(url, retries)` starts at attempt 1. -/
def fetchJSON (events : List NetEvent) (retries : Nat) : Except FetchErr Page × List Nat :=
  tryFetch retries 1 events

/-- The default of the `retries` parameter of `fetchJSON`. -/
def defaultRetries : Nat := 3

/-- Characters removed by JS `String.prototype.trim` (the ASCII portion:
space, tab, LF, CR, VT, FF; cursors are base64-like tokens, so the exotic
Unicode space separators are irrelevant here). -/
def jsWhitespace (c : Char) : Bool :=
  c == ' ' || c == '\t' || c == '\n' || c == '\r' || c == Char.ofNat 11 || c == Char.ofNat 12

/-- JS `s.trim()`: strip leading and trailing whitespace. -/
def jsTrim (s : String) : String :=
  ⟨((s.data.dropWhile jsWhitespace).reverse.dropWhile jsWhitespace).reverse⟩

/-- The `while (cursor && cursor.trim() !== "")` test: `cursor` is falsy when
absent, null or the empty string; otherwise its trim must be non-empty. -/
def continueCursor : Option String → Bool
  | none => false
  | some s => s != "" && jsTrim s != ""

/-- The mutable state of one `fetchAPI` call: `allItems`, `newCount`,
`duplicateCount` and the shared dedup index `existingData.ids`. -/
structure FetchAcc where
  items : List PersistedRecord
  newCount : Nat
  duplicateCount : Nat
  ids : List Nat
deriving Repr, DecidableEq

/-- The body of `res.data.forEach(item => ...)` in `fetchAPI`: a known id
counts a duplicate; a fresh id is transformed, appended, indexed and counted
new. -/
def processItem (st : FetchAcc) (item : RawItem) : FetchAcc :=
  if item.id ∈ st.ids then
    { st with duplicateCount := st.duplicateCount + 1 }
  else
    { st with
      items := st.items ++ [transformItem item]
      newCount := st.newCount + 1
      ids := addId st.ids item.id }

/-- The responses the upstream gives to the successive page requests of one
`fetchAPI` call, each already settled through `fetchJSON`. -/
abbrev SourceRun := List (Except FetchErr Page)

/-- The `do ... while` pagination loop of `fetchAPI`.  A rejected fetch is
caught by the surrounding `try`, which returns the accumulator as-is; an
exhausted response list likewise stands for a request that never succeeds.
A successful page has its `res.data` items folded in (skipped when missing or
not an array), then `cursor = res.nextPageCursor` decides continuation. -/
def fetchAPIGo : List (Except FetchErr Page) → FetchAcc → FetchAcc
  | [], st => st
  | Except.error _ :: _, st => st
  | Except.ok pg :: rest, st =>
    let st' :=
      match pg.data with
      | some l => l.foldl processItem st
      | none => st
    if continueCursor pg.nextPageCursor then fetchAPIGo rest st' else st'

/-- `fetchAPI(api, existingData)`: starts from empty accumulators and the
caller's dedup index, and returns `{ items: allItems, newCount,
duplicateCount }` together with the mutated index. -/
def fetchAPI (responses : SourceRun) (ids : List Nat) : FetchAcc :=
  fetchAPIGo responses ⟨[], 0, 0, ids⟩

/-- The raw item occurrences the pagination loop actually examines: pages up
to (not including) the first failed request, stopping after a page whose
cursor does not continue.  Loop control in `fetchAPI` depends only on the
responses, never on the dedup index, so this is a function of the responses
alone. -/
def procOccs : List (Except FetchErr Page) → List RawItem
  | [] => []
  | Except.error _ :: _ => []
  | Except.ok pg :: rest =>
    pg.data.getD [] ++ (if continueCursor pg.nextPageCursor then procOccs rest else [])

/-- The per-target source loop of `processAPIs`: `allItems` starts as a copy
of the loaded items, each bound API runs `fetchAPI` against the shared index,
and its new records and counts are appended/accumulated. -/
def processSources : List SourceRun → List PersistedRecord → Nat → Nat → List Nat →
    List PersistedRecord × Nat × Nat × List Nat
  | [], items, n, d, ids => (items, n, d, ids)
  | src :: rest, items, n, d, ids =>
    let r := fetchAPI src ids
    processSources rest (items ++ r.items) (n + r.newCount) (d + r.duplicateCount) r.ids

/-- The outcome of one target in `processAPIs`. -/
structure RunResult where
  doc : CatalogDocument
  newTotal : Nat
  dupTotal : Nat
deriving Repr, DecidableEq

/-- The body of the per-file loop of `processAPIs` for one target: load,
run every bound source sequentially over the shared dedup index, then save
the merged list. -/
def processTarget (content : FileContent) (sources : List SourceRun) (now : String) :
    RunResult :=
  let ld := loadData content
  let r := processSources sources ld.1 0 0 ld.2
  { doc := saveData r.1 now, newTotal := r.2.1, dupTotal := r.2.2.1 }

/-! Auxiliary machinery to reason about the decimal keys produced by
`(counter++).toString()`, i.e. `Nat.repr`. -/

/-- The decimal digit characters of `n`, most significant first: the
recursion `Nat.toDigitsCore` implements with fuel, stated fuel-free. -/
def natDigits (n : Nat) : List Char :=
  if h : n < 10 then [Nat.digitChar n]
  else
    have : n / 10 < n := Nat.div_lt_self (by omega) (by omega)
    natDigits (n / 10) ++ [Nat.digitChar (n % 10)]
termination_by n

/-- Numeric value of a decimal digit character. -/
def digitVal (c : Char) : Nat := c.toNat - 48

/-- Reads a most-significant-first digit list back into a number. -/
def decodeDigits (l : List Char) : Nat :=
  l.foldl (fun a c => 10 * a + digitVal c) 0

/-! Lemmas: `Nat.repr` is injective, so the transformer's per-key buckets are
never reused. -/

theorem natDigits_lt (n : Nat) (h : n < 10) : natDigits n = [Nat.digitChar n] := by
  rw [natDigits]
  simp [h]

theorem natDigits_ge (n : Nat) (h : ¬ n < 10) :
    natDigits n = natDigits (n / 10) ++ [Nat.digitChar (n % 10)] := by
  rw [natDigits]
  simp [h]

theorem digitVal_digitChar : ∀ d : Nat, d < 10 → digitVal (Nat.digitChar d) = d := by
  decide

theorem foldl_decode_natDigits (n : Nat) :
    ∀ a : Nat, (natDigits n).foldl (fun x c => 10 * x + digitVal c) a
      = a * 10 ^ (natDigits n).length + n := by
  induction n using Nat.strong_induction_on with
  | _ n ih =>
    intro a
    by_cases h : n < 10
    · rw [natDigits_lt n h]
      simp [digitVal_digitChar n h]
      omega
    · rw [natDigits_ge n h]
      rw [List.foldl_append]
      have hd : n / 10 < n := Nat.div_lt_self (by omega) (by omega)
      rw [ih (n / 10) hd a]
      simp [digitVal_digitChar (n % 10) (Nat.mod_lt n (by omega))]
      rw [pow_succ, ← mul_assoc]
      omega

theorem decodeDigits_natDigits (n : Nat) : decodeDigits (natDigits n) = n := by
  have h := foldl_decode_natDigits n 0
  simpa [decodeDigits] using h

theorem toDigitsCore_eq_natDigits :
    ∀ (f n : Nat) (ds : List Char), n < f →
      Nat.toDigitsCore 10 f n ds = natDigits n ++ ds := by
  intro f
  induction f with
  | zero => intro n ds h; omega
  | succ f ih =>
    intro n ds h
    simp only [Nat.toDigitsCore]
    by_cases h0 : n / 10 = 0
    · have hn : n < 10 := by omega
      simp [h0, natDigits_lt n hn, Nat.mod_eq_of_lt hn]
    · have hn : ¬ n < 10 := by omega
      have hlt : n / 10 < f := by
        have := Nat.div_lt_self (show 0 < n by omega) (show 1 < 10 by omega)
        omega
      simp [h0, ih (n / 10) (Nat.digitChar (n % 10) :: ds) hlt, natDigits_ge n hn]

theorem repr_eq_natDigits (n : Nat) : Nat.repr n = (natDigits n).asString := by
  rw [Nat.repr, Nat.toDigits, toDigitsCore_eq_natDigits (n + 1) n [] (by omega)]
  simp

theorem natRepr_injective (m n : Nat) (h : Nat.repr m = Nat.repr n) : m = n := by
  rw [repr_eq_natDigits, repr_eq_natDigits] at h
  have hl : natDigits m = natDigits n := by
    have h2 := congrArg String.data h
    simpa [List.asString] using h2
  have h3 := congrArg decodeDigits hl
  simpa [decodeDigits_natDigits] using h3

/-! Characterization of the transformer's `bundledItems` construction. -/

theorem pushBucket_fresh (l : List (String × List Nat)) (key : String) (v : Nat)
    (h : key ∉ l.map Prod.fst) : pushBucket l key v = l ++ [(key, [v])] := by
  simp [pushBucket, h]

theorem buildBundled_go (subs : List SubItem) :
    ∀ (acc : List (String × List Nat)) (c : Nat),
      (∀ k ∈ acc.map Prod.fst, ∃ m, m < c ∧ k = Nat.repr m) →
      subs.foldl buildBundledStep (acc, c) =
        (acc ++ (List.enumFrom c (retainedSubs subs)).map
            (fun p => (Nat.repr p.1, [p.2.id.getD 0])),
         c + (retainedSubs subs).length) := by
  induction subs with
  | nil => intro acc c hacc; simp [retainedSubs]
  | cons b subs ih =>
    intro acc c hacc
    by_cases hb : keepSub b
    · have hfresh : Nat.repr c ∉ acc.map Prod.fst := by
        intro hmem
        obtain ⟨m, hm, he⟩ := hacc _ hmem
        have := natRepr_injective c m he
        omega
      have hstep : buildBundledStep (acc, c) b = (acc ++ [(Nat.repr c, [b.id.getD 0])], c + 1) := by
        simp [buildBundledStep, hb, pushBucket_fresh _ _ _ hfresh]
      rw [List.foldl_cons, hstep]
      rw [ih (acc ++ [(Nat.repr c, [b.id.getD 0])]) (c + 1) (by
        intro k hk
        rw [List.map_append] at hk
        rcases List.mem_append.mp hk with hk1 | hk2
        · obtain ⟨m, hm, he⟩ := hacc _ hk1
          exact ⟨m, by omega, he⟩
        · simp at hk2
          exact ⟨c, by omega, hk2⟩)]
      simp [retainedSubs, List.filter_cons_of_pos, hb, List.append_assoc]
      omega
    · have hstep : buildBundledStep (acc, c) b = (acc, c) := by
        simp [buildBundledStep, hb]
      rw [List.foldl_cons, hstep, ih acc c hacc]
      simp [retainedSubs, List.filter_cons_of_neg, hb]

theorem transformItem_bundled_none (i : Nat) (nm : String) :
    (transformItem ⟨i, nm, none⟩).bundledItems = none := rfl

theorem transformItem_bundled_some (i : Nat) (nm : String) (subs : List SubItem) :
    (transformItem ⟨i, nm, some subs⟩).bundledItems =
      if retainedSubs subs = [] then none
      else some ((List.enumFrom 1 (retainedSubs subs)).map
          (fun p => (Nat.repr p.1, [p.2.id.getD 0]))) := by
  cases subs with
  | nil => simp [transformItem, retainedSubs]
  | cons b bs =>
    have hgo := buildBundled_go (b :: bs) [] 1 (by simp)
    simp only [transformItem, hgo]
    by_cases hr : retainedSubs (b :: bs) = []
    · simp [hr]
    · have hlen : (retainedSubs (b :: bs)).length ≠ 0 := by
        simpa [List.length_eq_zero] using hr
      simp [hr, hlen]

theorem transformItem_id (item : RawItem) : (transformItem item).id = item.id := by
  obtain ⟨i, nm, bi⟩ := item
  cases bi with
  | none => rfl
  | some subs =>
    simp only [transformItem]
    split <;> [skip; rfl]
    split <;> rfl

/-- C6: the claim says the positional counter advances for every sub-item
examined, including filtered-out ones, so a retained sub-item's key would be
its index among all processed sub-items.  On an item whose first sub-item is
a filtered `UserOutfit` and whose second is a retained `Hat`, the code gives
the Hat key "1", not "2": the counter advances only on retained sub-items. -/
theorem c6_counterexample :
    (transformItem ⟨10, "bundle",
        some [⟨"UserOutfit", some 5⟩, ⟨"Hat", some 7⟩]⟩).bundledItems
      = some [("1", [7])] ∧
    (transformItem ⟨10, "bundle",
        some [⟨"UserOutfit", some 5⟩, ⟨"Hat", some 7⟩]⟩).bundledItems
      ≠ some [("2", [7])] := by
  decide

/-- C6 (amended): the transformer assigns each retained sub-item a positional
key starting at "1", and the counter increments only when a sub-item is
retained, so a retained sub-item's key is its 1-based index among the
retained sub-items (sub-items filtered out by type or missing id do not
advance the counter). -/
theorem transform_positional_keys (item : RawItem) :
    (transformItem item).bundledItems =
      match item.bundledItems with
      | none => none
      | some subs =>
        if retainedSubs subs = [] then none
        else some ((List.enumFrom 1 (retainedSubs subs)).map
            (fun p => (Nat.repr p.1, [p.2.id.getD 0]))) := by
  obtain ⟨i, nm, bi⟩ := item
  cases bi with
  | none => exact transformItem_bundled_none i nm
  | some subs => exact transformItem_bundled_some i nm subs

/-- C10: in every `bundledItems` mapping a transformed record carries, each
positional key is bound to exactly one sub-item id: the counter advances on
every store, so no bucket is ever reused. -/
theorem bundled_buckets_singleton (item : RawItem) (bs : List (String × List Nat))
    (k : String) (vs : List Nat)
    (h1 : (transformItem item).bundledItems = some bs) (h2 : (k, vs) ∈ bs) :
    vs.length = 1 := by
  obtain ⟨i, nm, bi⟩ := item
  cases bi with
  | none => rw [transformItem_bundled_none i nm] at h1; exact absurd h1 (by simp)
  | some subs =>
    rw [transformItem_bundled_some i nm subs] at h1
    by_cases hr : retainedSubs subs = []
    · rw [if_pos hr] at h1
      exact absurd h1 (by simp)
    · rw [if_neg hr] at h1
      have hbs : bs = (List.enumFrom 1 (retainedSubs subs)).map
          (fun p => (Nat.repr p.1, [p.2.id.getD 0])) := by
        simpa using h1.symm
      subst hbs
      obtain ⟨p, hp, he⟩ := List.mem_map.mp h2
      have hv : vs = [p.2.id.getD 0] := (congrArg Prod.snd he).symm
      simp [hv]

/-- Witness for C10 at a concrete item with one retained sub-item. -/
theorem bundled_buckets_singleton_witness : ([7] : List Nat).length = 1 :=
  bundled_buckets_singleton ⟨10, "bundle", some [⟨"Hat", some 7⟩]⟩ [("1", [7])] "1" [7]
    (by decide) (by decide)

/-- C8: an item with no sub-items, or all of whose sub-items are filtered out
(excluded "UserOutfit" type or null id), yields a record with no
`bundledItems` field at all, not an empty mapping. -/
theorem transform_omits_empty_bundled (item : RawItem)
    (h : ∀ subs, item.bundledItems = some subs →
      ∀ b ∈ subs, b.type = "UserOutfit" ∨ b.id = none) :
    (transformItem item).bundledItems = none := by
  obtain ⟨i, nm, bi⟩ := item
  cases bi with
  | none => exact transformItem_bundled_none i nm
  | some subs =>
    rw [transformItem_bundled_some i nm subs]
    have hret : retainedSubs subs = [] := by
      rw [retainedSubs, List.filter_eq_nil_iff]
      intro b hb
      rcases h subs rfl b hb with h1 | h1 <;> simp [keepSub, jsTruthyId, h1]
    simp [hret]

/-- Witness for C8: a `UserOutfit` sub-item and one with a null id are both
filtered, leaving no `bundledItems` field. -/
theorem transform_omits_empty_bundled_witness :
    (transformItem ⟨3, "emote",
        some [⟨"UserOutfit", some 4⟩, ⟨"Hat", none⟩]⟩).bundledItems = none :=
  transform_omits_empty_bundled _ (by intro subs hs; cases hs; decide)

/-! The `fetchJSON` retry policy. -/

/-- C7: only network/connection-level failures are retried, with delay
`2000 * attempt` between attempts and at most `retries` attempts; a timeout,
a non-success status and a parse failure reject at once with no retry and no
delay; a network failure on the last allowed attempt surfaces that (last)
network error. -/
theorem fetchJSON_retry_policy (retries : Nat) :
    (∀ rest, fetchJSON (NetEvent.timeout :: rest) retries
        = (Except.error FetchErr.timeoutErr, [])) ∧
    (∀ status body rest, status ≠ 200 →
      fetchJSON (NetEvent.response status body :: rest) retries
        = (Except.error (FetchErr.httpStatus status), [])) ∧
    (∀ rest, fetchJSON (NetEvent.response 200 none :: rest) retries
        = (Except.error FetchErr.parseErr, [])) ∧
    (∀ attempt msg rest, attempt < retries →
      tryFetch retries attempt (NetEvent.netErr msg :: rest)
        = ((tryFetch retries (attempt + 1) rest).1,
           2000 * attempt :: (tryFetch retries (attempt + 1) rest).2)) ∧
    (∀ attempt msg rest, ¬ attempt < retries →
      tryFetch retries attempt (NetEvent.netErr msg :: rest)
        = (Except.error (FetchErr.netErr msg), [])) := by
  refine ⟨fun rest => rfl, fun status body rest h => ?_, fun rest => rfl,
    fun attempt msg rest h => ?_, fun attempt msg rest h => ?_⟩
  · simp [fetchJSON, tryFetch, h]
  · simp [tryFetch, h]
  · simp [tryFetch, h]

/-- Witness for C7: a 500 status fails at once; a first-attempt network error
retries after `2000 * 1` ms; a third-attempt network error with `retries = 3`
is surfaced. -/
theorem fetchJSON_retry_policy_witness :
    fetchJSON [NetEvent.response 500 none] 3
        = (Except.error (FetchErr.httpStatus 500), []) ∧
    tryFetch 3 1 [NetEvent.netErr "refused"]
        = ((tryFetch 3 (1 + 1) []).1, 2000 * 1 :: (tryFetch 3 (1 + 1) []).2) ∧
    tryFetch 3 3 [NetEvent.netErr "down"]
        = (Except.error (FetchErr.netErr "down"), []) :=
  ⟨(fetchJSON_retry_policy 3).2.1 500 none [] (by decide),
   (fetchJSON_retry_policy 3).2.2.2.1 1 "refused" [] (by decide),
   (fetchJSON_retry_policy 3).2.2.2.2 3 "down" [] (by decide)⟩

/-! Lemmas about the per-item dedup step and the pagination loop. -/

theorem mem_addId (s : List Nat) (y x : Nat) : x ∈ addId s y ↔ x = y ∨ x ∈ s := by
  by_cases h : y ∈ s
  · simp only [addId, if_pos h]
    constructor
    · exact Or.inr
    · rintro (rfl | hx)
      · exact h
      · exact hx
  · simp [addId, h]

theorem processItem_dup (its : List PersistedRecord) (nc dc : Nat) (ids : List Nat)
    (b : RawItem) (h : b.id ∈ ids) :
    processItem ⟨its, nc, dc, ids⟩ b = ⟨its, nc, dc + 1, ids⟩ := by
  simp [processItem, h]

theorem processItem_new (its : List PersistedRecord) (nc dc : Nat) (ids : List Nat)
    (b : RawItem) (h : b.id ∉ ids) :
    processItem ⟨its, nc, dc, ids⟩ b
      = ⟨its ++ [transformItem b], nc + 1, dc, addId ids b.id⟩ := by
  simp [processItem, h]

theorem covered_step (its : List PersistedRecord) (ids : List Nat) (b : RawItem)
    (hcov : ∀ i ∈ its, i.id ∈ ids) :
    ∀ i ∈ its ++ [transformItem b], i.id ∈ addId ids b.id := by
  intro i hi
  rcases List.mem_append.mp hi with h1 | h1
  · exact (mem_addId _ _ _).mpr (Or.inr (hcov i h1))
  · have he : i = transformItem b := by simpa using h1
    rw [he, transformItem_id]
    exact (mem_addId _ _ _).mpr (Or.inl rfl)

theorem processItem_fold_ids (l : List RawItem) :
    ∀ (its : List PersistedRecord) (nc dc : Nat) (ids : List Nat) (x : Nat),
      x ∈ (l.foldl processItem ⟨its, nc, dc, ids⟩).ids ↔ x ∈ ids ∨ x ∈ l.map RawItem.id := by
  induction l with
  | nil => intro its nc dc ids x; simp
  | cons b l ih =>
    intro its nc dc ids x
    rw [List.foldl_cons]
    by_cases hid : b.id ∈ ids
    · rw [processItem_dup its nc dc ids b hid, ih]
      simp only [List.map_cons, List.mem_cons]
      constructor
      · rintro (hx | hx)
        · exact Or.inl hx
        · exact Or.inr (Or.inr hx)
      · rintro (hx | rfl | hx)
        · exact Or.inl hx
        · exact Or.inl hid
        · exact Or.inr hx
    · rw [processItem_new its nc dc ids b hid, ih]
      simp only [mem_addId, List.map_cons, List.mem_cons]
      constructor
      · rintro ((rfl | hx) | hx)
        · exact Or.inr (Or.inl rfl)
        · exact Or.inl hx
        · exact Or.inr (Or.inr hx)
      · rintro (hx | rfl | hx)
        · exact Or.inl (Or.inr hx)
        · exact Or.inl (Or.inl rfl)
        · exact Or.inr hx

theorem processItem_fold_items_mono (l : List RawItem) :
    ∀ (its : List PersistedRecord) (nc dc : Nat) (ids : List Nat) (i : PersistedRecord),
      i ∈ its → i ∈ (l.foldl processItem ⟨its, nc, dc, ids⟩).items := by
  induction l with
  | nil => intro its nc dc ids i hi; exact hi
  | cons b l ih =>
    intro its nc dc ids i hi
    rw [List.foldl_cons]
    by_cases hid : b.id ∈ ids
    · rw [processItem_dup its nc dc ids b hid]
      exact ih its nc (dc + 1) ids i hi
    · rw [processItem_new its nc dc ids b hid]
      exact ih _ _ _ _ i (List.mem_append.mpr (Or.inl hi))

theorem processItem_fold_inv (l : List RawItem) :
    ∀ (its : List PersistedRecord) (nc dc : Nat) (ids : List Nat),
      (its.map PersistedRecord.id).Nodup → (∀ i ∈ its, i.id ∈ ids) →
      ((l.foldl processItem ⟨its, nc, dc, ids⟩).items.map PersistedRecord.id).Nodup ∧
        ∀ i ∈ (l.foldl processItem ⟨its, nc, dc, ids⟩).items,
          i.id ∈ (l.foldl processItem ⟨its, nc, dc, ids⟩).ids := by
  induction l with
  | nil => intro its nc dc ids h1 h2; exact ⟨h1, h2⟩
  | cons b l ih =>
    intro its nc dc ids h1 h2
    rw [List.foldl_cons]
    by_cases hid : b.id ∈ ids
    · rw [processItem_dup its nc dc ids b hid]
      exact ih its nc (dc + 1) ids h1 h2
    · rw [processItem_new its nc dc ids b hid]
      apply ih
      · rw [List.map_append]
        simp only [List.map_cons, List.map_nil, transformItem_id]
        rw [List.nodup_append]
        refine ⟨h1, by simp, ?_⟩
        intro x hx hx'
        have hxb : x = b.id := by simpa using hx'
        obtain ⟨i, hi, hix⟩ := List.mem_map.mp hx
        apply hid
        rw [← hxb, ← hix]
        exact h2 i hi
      · exact covered_step its ids b h2

theorem processItem_fold_fresh (l : List RawItem) :
    ∀ (its : List PersistedRecord) (nc dc : Nat) (ids : List Nat),
      ∀ i ∈ (l.foldl processItem ⟨its, nc, dc, ids⟩).items, i ∈ its ∨ i.id ∉ ids := by
  induction l with
  | nil => intro its nc dc ids i hi; exact Or.inl hi
  | cons b l ih =>
    intro its nc dc ids i hi
    rw [List.foldl_cons] at hi
    by_cases hid : b.id ∈ ids
    · rw [processItem_dup its nc dc ids b hid] at hi
      exact ih its nc (dc + 1) ids i hi
    · rw [processItem_new its nc dc ids b hid] at hi
      rcases ih _ _ _ _ i hi with h | h
      · rcases List.mem_append.mp h with h1 | h1
        · exact Or.inl h1
        · right
          have he : i = transformItem b := by simpa using h1
          rw [he, transformItem_id]
          exact hid
      · right
        intro hx
        exact h ((mem_addId _ _ _).mpr (Or.inr hx))

theorem processItem_fold_counts (l : List RawItem) :
    ∀ (its : List PersistedRecord) (nc dc : Nat) (ids : List Nat),
      (l.foldl processItem ⟨its, nc, dc, ids⟩).newCount
          + (l.foldl processItem ⟨its, nc, dc, ids⟩).duplicateCount
        = nc + dc + l.length := by
  induction l with
  | nil => intro its nc dc ids; simp
  | cons b l ih =>
    intro its nc dc ids
    rw [List.foldl_cons]
    by_cases hid : b.id ∈ ids
    · rw [processItem_dup its nc dc ids b hid, ih]
      simp only [List.length_cons]
      omega
    · rw [processItem_new its nc dc ids b hid, ih]
      simp only [List.length_cons]
      omega

theorem processItem_fold_allDup (l : List RawItem) :
    ∀ (its : List PersistedRecord) (nc dc : Nat) (ids : List Nat),
      (∀ it ∈ l, it.id ∈ ids) →
      l.foldl processItem ⟨its, nc, dc, ids⟩ = ⟨its, nc, dc + l.length, ids⟩ := by
  induction l with
  | nil => intro its nc dc ids h; simp
  | cons b l ih =>
    intro its nc dc ids h
    rw [List.foldl_cons, processItem_dup its nc dc ids b (h b (List.mem_cons_self b l))]
    rw [ih its nc (dc + 1) ids (fun it hit => h it (List.mem_cons_of_mem b hit))]
    simp only [List.length_cons, FetchAcc.mk.injEq, true_and, and_true]
    omega

theorem processItem_fold_dup_mono (l : List RawItem) :
    ∀ (its : List PersistedRecord) (nc dc : Nat) (ids : List Nat),
      dc ≤ (l.foldl processItem ⟨its, nc, dc, ids⟩).duplicateCount := by
  induction l with
  | nil => intro its nc dc ids; exact le_refl _
  | cons b l ih =>
    intro its nc dc ids
    rw [List.foldl_cons]
    by_cases hid : b.id ∈ ids
    · rw [processItem_dup its nc dc ids b hid]
      exact le_trans (Nat.le_succ _) (ih its nc (dc + 1) ids)
    · rw [processItem_new its nc dc ids b hid]
      exact ih _ _ _ _

theorem processItem_fold_dup_hit (l : List RawItem) :
    ∀ (its : List PersistedRecord) (nc dc : Nat) (ids : List Nat),
      ∀ it ∈ l, it.id ∈ ids →
      dc + 1 ≤ (l.foldl processItem ⟨its, nc, dc, ids⟩).duplicateCount := by
  induction l with
  | nil => intro its nc dc ids it hit; exact absurd hit (List.not_mem_nil it)
  | cons b l ih =>
    intro its nc dc ids it hit hid2
    rw [List.foldl_cons]
    rcases List.mem_cons.mp hit with rfl | hmem
    · rw [processItem_dup its nc dc ids it hid2]
      exact processItem_fold_dup_mono l its nc (dc + 1) ids
    · by_cases hid : b.id ∈ ids
      · rw [processItem_dup its nc dc ids b hid]
        have h2 := ih its nc (dc + 1) ids it hmem hid2
        omega
      · rw [processItem_new its nc dc ids b hid]
        exact ih _ _ _ _ it hmem ((mem_addId _ _ _).mpr (Or.inr hid2))

theorem processItem_fold_ids_items (l : List RawItem) :
    ∀ (its : List PersistedRecord) (nc dc : Nat) (ids : List Nat),
      (∀ i ∈ its, i.id ∈ ids) → ∀ x,
      x ∈ (l.foldl processItem ⟨its, nc, dc, ids⟩).ids ↔
        x ∈ ids ∨ x ∈ (l.foldl processItem ⟨its, nc, dc, ids⟩).items.map PersistedRecord.id := by
  induction l with
  | nil =>
    intro its nc dc ids hcov x
    simp only [List.foldl_nil]
    constructor
    · exact Or.inl
    · rintro (hx | hx)
      · exact hx
      · obtain ⟨i, hi, rfl⟩ := List.mem_map.mp hx
        exact hcov i hi
  | cons b l ih =>
    intro its nc dc ids hcov x
    rw [List.foldl_cons]
    by_cases hid : b.id ∈ ids
    · rw [processItem_dup its nc dc ids b hid]
      exact ih its nc (dc + 1) ids hcov x
    · rw [processItem_new its nc dc ids b hid]
      rw [ih _ _ _ _ (covered_step its ids b hcov) x]
      constructor
      · rintro (hx | hx)
        · rcases (mem_addId _ _ _).mp hx with rfl | hx2
          · right
            refine List.mem_map.mpr ⟨transformItem b, ?_, transformItem_id b⟩
            exact processItem_fold_items_mono l _ _ _ _ _ (List.mem_append.mpr (Or.inr (by simp)))
          · exact Or.inl hx2
        · exact Or.inr hx
      · rintro (hx | hx)
        · exact Or.inl ((mem_addId _ _ _).mpr (Or.inr hx))
        · exact Or.inr hx

theorem fetchAPIGo_eq_fold (resp : List (Except FetchErr Page)) :
    ∀ st : FetchAcc, fetchAPIGo resp st = (procOccs resp).foldl processItem st := by
  induction resp with
  | nil => intro st; rfl
  | cons r rest ih =>
    intro st
    cases r with
    | error e => rfl
    | ok pg =>
      cases hd : pg.data with
      | none =>
        by_cases hc : continueCursor pg.nextPageCursor
        · simp [fetchAPIGo, procOccs, hd, hc, ih]
        · simp [fetchAPIGo, procOccs, hd, hc]
      | some items =>
        by_cases hc : continueCursor pg.nextPageCursor
        · simp [fetchAPIGo, procOccs, hd, hc, ih, List.foldl_append]
        · simp [fetchAPIGo, procOccs, hd, hc, List.foldl_append]

theorem fetchAPI_eq_fold (resp : SourceRun) (ids : List Nat) :
    fetchAPI resp ids = (procOccs resp).foldl processItem ⟨[], 0, 0, ids⟩ :=
  fetchAPIGo_eq_fold resp _

theorem fetchAPIGo_error_append (pref : SourceRun) (e : FetchErr) (rest : SourceRun) :
    ∀ st : FetchAcc,
      (∀ r ∈ pref, ∃ pg, r = Except.ok pg ∧ continueCursor pg.nextPageCursor = true) →
      fetchAPIGo (pref ++ Except.error e :: rest) st = fetchAPIGo pref st := by
  induction pref with
  | nil => intro st h; rfl
  | cons r pref ih =>
    intro st h
    obtain ⟨pg, rfl, hc⟩ := h r (List.mem_cons_self r pref)
    simp only [List.cons_append, fetchAPIGo, hc, if_true]
    exact ih _ (fun r hr => h r (List.mem_cons_of_mem _ hr))

/-- C3: if some page request fails irrecoverably (network retries exhausted,
timeout, bad status or malformed payload, all of which reject `fetchJSON`),
`fetchAPI` returns exactly the state accumulated from the earlier successful
pages — items and `newCount` included — and raises nothing: the run of the
erroring upstream equals the run that ends after the successful prefix. -/
theorem paginator_keeps_prior_pages_on_error (pref : SourceRun) (e : FetchErr)
    (rest : SourceRun) (ids : List Nat)
    (h : ∀ r ∈ pref, ∃ pg, r = Except.ok pg ∧ continueCursor pg.nextPageCursor = true) :
    fetchAPI (pref ++ Except.error e :: rest) ids = fetchAPI pref ids :=
  fetchAPIGo_error_append pref e rest _ h

/-- Witness for C3: three upstream pages where page 2 rejects; the call
returns page 1's records only, with `newCount = 2` from page 1. -/
theorem paginator_keeps_prior_pages_on_error_witness :
    fetchAPI [Except.ok ⟨some [⟨1, "a", none⟩, ⟨2, "b", none⟩], some "cur2"⟩,
              Except.error FetchErr.parseErr,
              Except.ok ⟨some [⟨3, "c", none⟩], none⟩] []
      = fetchAPI [Except.ok ⟨some [⟨1, "a", none⟩, ⟨2, "b", none⟩], some "cur2"⟩] [] ∧
    (fetchAPI [Except.ok ⟨some [⟨1, "a", none⟩, ⟨2, "b", none⟩], some "cur2"⟩] []).newCount
      = 2 :=
  ⟨paginator_keeps_prior_pages_on_error
      [Except.ok ⟨some [⟨1, "a", none⟩, ⟨2, "b", none⟩], some "cur2"⟩]
      FetchErr.parseErr [Except.ok ⟨some [⟨3, "c", none⟩], none⟩] []
      (by
        intro r hr
        rw [List.mem_singleton] at hr
        exact ⟨_, hr, by decide⟩),
   by decide⟩

/-! Loading, saving and the per-target reconciliation. -/

theorem mem_foldl_addId (items : List PersistedRecord) :
    ∀ (s : List Nat) (x : Nat),
      x ∈ items.foldl (fun s i => addId s i.id) s ↔ x ∈ s ∨ x ∈ items.map PersistedRecord.id := by
  induction items with
  | nil => intro s x; simp
  | cons i items ih =>
    intro s x
    rw [List.foldl_cons, ih]
    simp only [mem_addId, List.map_cons, List.mem_cons]
    tauto

theorem mem_idsOfItems (items : List PersistedRecord) (x : Nat) :
    x ∈ idsOfItems items ↔ x ∈ items.map PersistedRecord.id := by
  rw [idsOfItems, mem_foldl_addId]
  simp

theorem loadData_ids (c : FileContent) : (loadData c).2 = idsOfItems (loadData c).1 := by
  cases c with
  | absent => rfl
  | unreadable => rfl
  | parsed d => rfl

theorem loadData_parsed_some (L : List PersistedRecord) :
    loadData (FileContent.parsed (some L)) = (L, idsOfItems L) := rfl

theorem saveData_data (items : List PersistedRecord) (now : String) :
    (saveData items now).data = items := rfl

theorem processSources_cons (src : SourceRun) (rest : List SourceRun)
    (items : List PersistedRecord) (n d : Nat) (ids : List Nat) :
    processSources (src :: rest) items n d ids
      = processSources rest (items ++ (fetchAPI src ids).items)
          (n + (fetchAPI src ids).newCount) (d + (fetchAPI src ids).duplicateCount)
          (fetchAPI src ids).ids := rfl

theorem processTarget_single (c : FileContent) (s : SourceRun) (t : String) :
    processTarget c [s] t
      = ⟨saveData ((loadData c).1 ++ (fetchAPI s (loadData c).2).items) t,
         0 + (fetchAPI s (loadData c).2).newCount,
         0 + (fetchAPI s (loadData c).2).duplicateCount⟩ := rfl

theorem processTarget_pair (c : FileContent) (a b : SourceRun) (t : String) :
    processTarget c [a, b] t
      = ⟨saveData (((loadData c).1 ++ (fetchAPI a (loadData c).2).items)
            ++ (fetchAPI b (fetchAPI a (loadData c).2).ids).items) t,
         0 + (fetchAPI a (loadData c).2).newCount
           + (fetchAPI b (fetchAPI a (loadData c).2).ids).newCount,
         0 + (fetchAPI a (loadData c).2).duplicateCount
           + (fetchAPI b (fetchAPI a (loadData c).2).ids).duplicateCount⟩ := rfl

theorem procOccs_cons_ok (pg : Page) (rest : List (Except FetchErr Page)) :
    procOccs (Except.ok pg :: rest)
      = pg.data.getD []
          ++ (if continueCursor pg.nextPageCursor then procOccs rest else []) := rfl

/-- C5: every saved document's `totalItems` equals the length of its `data`
sequence; it is recomputed from the item list on each save, for all inputs. -/
theorem saveData_totalItems (items : List PersistedRecord) (now : String) :
    (saveData items now).totalItems = (saveData items now).data.length := rfl

/-- C9: an absent file, an unreadable/unparsable file, and a parsed file
without a `data` field all load as the empty document with an empty dedup
index; `loadData` is total, so nothing is raised to the caller. -/
theorem loadData_recovers_empty :
    loadData FileContent.absent = ([], []) ∧
    loadData FileContent.unreadable = ([], []) ∧
    loadData (FileContent.parsed none) = ([], []) :=
  ⟨rfl, rfl, rfl⟩

theorem processSources_nodup (sources : List SourceRun) :
    ∀ (items : List PersistedRecord) (n d : Nat) (ids : List Nat),
      (items.map PersistedRecord.id).Nodup → (∀ i ∈ items, i.id ∈ ids) →
      ((processSources sources items n d ids).1.map PersistedRecord.id).Nodup ∧
        ∀ i ∈ (processSources sources items n d ids).1,
          i.id ∈ (processSources sources items n d ids).2.2.2 := by
  induction sources with
  | nil => intro items n d ids h1 h2; exact ⟨h1, h2⟩
  | cons src rest ih =>
    intro items n d ids h1 h2
    rw [processSources_cons]
    have hfold := fetchAPI_eq_fold src ids
    have hinv := processItem_fold_inv (procOccs src) [] 0 0 ids (by simp)
      (by intro i hi; cases hi)
    apply ih
    · rw [List.map_append, List.nodup_append]
      refine ⟨h1, by rw [hfold]; exact hinv.1, ?_⟩
      intro y hy hy'
      obtain ⟨i, hi, hix⟩ := List.mem_map.mp hy'
      rw [hfold] at hi
      rcases processItem_fold_fresh (procOccs src) [] 0 0 ids i hi with habs | hni
      · cases habs
      · obtain ⟨j, hj, hjx⟩ := List.mem_map.mp hy
        apply hni
        rw [hix, ← hjx]
        exact h2 j hj
    · intro i hi
      rcases List.mem_append.mp hi with h | h
      · rw [hfold, processItem_fold_ids]
        exact Or.inl (h2 i h)
      · rw [hfold] at h ⊢
        exact hinv.2 i h

/-- C4: the claim includes documents whose file content already holds
records sharing an id; the code keeps pre-existing duplicates: loading a file
whose `data` holds two records with id 1 and running one (empty) source over
it saves a document whose ids are not unique. -/
theorem c4_counterexample :
    ¬ ((processTarget (FileContent.parsed (some [⟨1, "a", none⟩, ⟨1, "b", none⟩]))
          [[Except.ok ⟨some [], none⟩]] "t").doc.data.map PersistedRecord.id).Nodup := by
  decide

/-- C4 (amended): whenever the loaded document's `data` is unique by id —
which holds for every document the program itself writes — the document saved
at run end has no two records with the same id, for any sources. -/
theorem saved_data_unique_by_id (content : FileContent) (sources : List SourceRun)
    (now : String)
    (h : ((loadData content).1.map PersistedRecord.id).Nodup) :
    (((processTarget content sources now).doc.data).map PersistedRecord.id).Nodup := by
  have hcov : ∀ i ∈ (loadData content).1, i.id ∈ (loadData content).2 := by
    intro i hi
    rw [loadData_ids content, mem_idsOfItems]
    exact List.mem_map.mpr ⟨i, hi, rfl⟩
  exact (processSources_nodup sources (loadData content).1 0 0 (loadData content).2 h hcov).1

/-- Witness for C4 (amended): a uniquely-keyed loaded document plus a page
with one duplicate and one new item saves with unique ids. -/
theorem saved_data_unique_by_id_witness :
    (((processTarget (FileContent.parsed (some [⟨5, "e", none⟩]))
        [[Except.ok ⟨some [⟨5, "dup", none⟩, ⟨6, "new", none⟩], none⟩]] "t").doc.data).map
          PersistedRecord.id).Nodup :=
  saved_data_unique_by_id (FileContent.parsed (some [⟨5, "e", none⟩]))
    [[Except.ok ⟨some [⟨5, "dup", none⟩, ⟨6, "new", none⟩], none⟩]] "t" (by decide)

theorem fetchAPI_counts (src : SourceRun) (ids : List Nat) :
    (fetchAPI src ids).newCount + (fetchAPI src ids).duplicateCount
      = (procOccs src).length := by
  rw [fetchAPI_eq_fold]
  have h := processItem_fold_counts (procOccs src) [] 0 0 ids
  omega

theorem rerun_occ_covered (content : FileContent) (src : SourceRun) :
    ∀ it ∈ procOccs src,
      it.id ∈ idsOfItems ((loadData content).1
        ++ (fetchAPI src (loadData content).2).items) := by
  intro it hit
  rw [mem_idsOfItems, List.map_append, List.mem_append]
  have h1 : it.id ∈ (fetchAPI src (loadData content).2).ids := by
    rw [fetchAPI_eq_fold, processItem_fold_ids]
    exact Or.inr (List.mem_map.mpr ⟨it, hit, rfl⟩)
  rw [fetchAPI_eq_fold src (loadData content).2,
      processItem_fold_ids_items _ _ _ _ _ (by intro i hi; cases hi) it.id] at h1
  rcases h1 with h1 | h1
  · left
    rw [loadData_ids content, mem_idsOfItems] at h1
    exact h1
  · right
    rw [fetchAPI_eq_fold src (loadData content).2]
    exact h1

theorem rerun_fetch_allDup (content : FileContent) (src : SourceRun) :
    fetchAPI src (idsOfItems ((loadData content).1
        ++ (fetchAPI src (loadData content).2).items))
      = ⟨[], 0, 0 + (procOccs src).length,
         idsOfItems ((loadData content).1
           ++ (fetchAPI src (loadData content).2).items)⟩ := by
  rw [fetchAPI_eq_fold]
  exact processItem_fold_allDup (procOccs src) [] 0 0 _ (rerun_occ_covered content src)

/-- C1: as stated, the claim fails when the upstream item set itself repeats
an id.  With one page holding two items of id 1, the first run (from an
absent file) counts `newCount = 1, duplicateCount = 1`; re-running over the
saved document counts both occurrences as duplicates, so the second run's
`duplicateCount` is 2, not the previous run's `newCount` of 1. -/
theorem c1_counterexample :
    ¬ ((processTarget (FileContent.parsed (some (processTarget FileContent.absent
          [[Except.ok ⟨some [⟨1, "a", none⟩, ⟨1, "b", none⟩], none⟩]] "t1").doc.data))
        [[Except.ok ⟨some [⟨1, "a", none⟩, ⟨1, "b", none⟩], none⟩]] "t2").dupTotal
      = (processTarget FileContent.absent
          [[Except.ok ⟨some [⟨1, "a", none⟩, ⟨1, "b", none⟩], none⟩]] "t1").newTotal) := by
  decide

/-- C1 (amended): re-running reconciliation over the document saved by a
prior run, against an upstream source responding identically, yields
`newTotal = 0`, `dupTotal` equal to the previous run's `newTotal` plus its
`dupTotal` (which is the previous `newTotal` whenever the previous run saw no
duplicates), and a saved `data` sequence identical to the previous one — in
particular the pre-existing records are untouched. -/
theorem rerun_is_all_duplicates (content : FileContent) (src : SourceRun) (t1 t2 : String) :
    (processTarget (FileContent.parsed (some (processTarget content [src] t1).doc.data))
        [src] t2).newTotal = 0 ∧
    (processTarget (FileContent.parsed (some (processTarget content [src] t1).doc.data))
        [src] t2).dupTotal
      = (processTarget content [src] t1).newTotal
          + (processTarget content [src] t1).dupTotal ∧
    (processTarget (FileContent.parsed (some (processTarget content [src] t1).doc.data))
        [src] t2).doc.data = (processTarget content [src] t1).doc.data := by
  have hfa2 := rerun_fetch_allDup content src
  have hcounts := fetchAPI_counts src (loadData content).2
  refine ⟨?_, ?_, ?_⟩
  · simp only [processTarget_single, saveData_data, loadData_parsed_some, hfa2]
  · simp only [processTarget_single, saveData_data, loadData_parsed_some, hfa2]
    omega
  · simp only [processTarget_single, saveData_data, loadData_parsed_some, hfa2,
      List.append_nil]

/-- C2: two sources bound to one target share the one mutable dedup index:
when source B's first page repeats an id `x` that source A's run added, the
target-level `dupTotal` exceeds source A's own duplicate count by at least
one, and `x` occurs at most once among the ids of the saved `data`. -/
theorem cross_source_dedup (content : FileContent) (pagesA : SourceRun) (pg : Page)
    (restB : SourceRun) (now : String) (x : Nat)
    (hA : x ∈ (fetchAPI pagesA (loadData content).2).items.map PersistedRecord.id)
    (hB : x ∈ (pg.data.getD []).map RawItem.id) :
    (fetchAPI pagesA (loadData content).2).duplicateCount + 1
        ≤ (processTarget content [pagesA, Except.ok pg :: restB] now).dupTotal ∧
    List.count x ((processTarget content [pagesA, Except.ok pg :: restB] now).doc.data.map
        PersistedRecord.id) ≤ 1 := by
  have hxids : x ∈ (fetchAPI pagesA (loadData content).2).ids := by
    obtain ⟨i, hi, hix⟩ := List.mem_map.mp hA
    rw [fetchAPI_eq_fold] at hi ⊢
    rw [← hix]
    exact (processItem_fold_inv (procOccs pagesA) [] 0 0 (loadData content).2 (by simp)
      (by intro j hj; cases hj)).2 i hi
  have hdupB : 1 ≤ (fetchAPI (Except.ok pg :: restB)
      (fetchAPI pagesA (loadData content).2).ids).duplicateCount := by
    obtain ⟨it, hit, hitx⟩ := List.mem_map.mp hB
    rw [fetchAPI_eq_fold]
    have hmem : it ∈ procOccs (Except.ok pg :: restB) := by
      rw [procOccs_cons_ok]
      exact List.mem_append.mpr (Or.inl hit)
    have hhit := processItem_fold_dup_hit (procOccs (Except.ok pg :: restB)) [] 0 0
      (fetchAPI pagesA (loadData content).2).ids it hmem (by rw [hitx]; exact hxids)
    omega
  have hx0 : x ∉ (loadData content).1.map PersistedRecord.id := by
    intro hmem
    obtain ⟨i, hi, hix⟩ := List.mem_map.mp hA
    rw [fetchAPI_eq_fold] at hi
    rcases processItem_fold_fresh (procOccs pagesA) [] 0 0 (loadData content).2 i hi with
      habs | hni
    · cases habs
    · apply hni
      rw [hix, loadData_ids content, mem_idsOfItems]
      exact hmem
  have hxA : List.count x
      ((fetchAPI pagesA (loadData content).2).items.map PersistedRecord.id) ≤ 1 := by
    have hnd : ((fetchAPI pagesA (loadData content).2).items.map PersistedRecord.id).Nodup := by
      rw [fetchAPI_eq_fold]
      exact (processItem_fold_inv (procOccs pagesA) [] 0 0 (loadData content).2 (by simp)
        (by intro j hj; cases hj)).1
    exact List.nodup_iff_count_le_one.mp hnd x
  have hxB : x ∉ (fetchAPI (Except.ok pg :: restB)
      (fetchAPI pagesA (loadData content).2).ids).items.map PersistedRecord.id := by
    intro hmem
    obtain ⟨i, hi, hix⟩ := List.mem_map.mp hmem
    rw [fetchAPI_eq_fold] at hi
    rcases processItem_fold_fresh _ [] 0 0 _ i hi with habs | hni
    · cases habs
    · exact hni (hix ▸ hxids)
  constructor
  · simp only [processTarget_pair]
    omega
  · simp only [processTarget_pair, saveData_data, List.map_append, List.count_append]
    have h0 : List.count x ((loadData content).1.map PersistedRecord.id) = 0 :=
      List.count_eq_zero.mpr hx0
    have hB0 : List.count x ((fetchAPI (Except.ok pg :: restB)
        (fetchAPI pagesA (loadData content).2).ids).items.map PersistedRecord.id) = 0 :=
      List.count_eq_zero.mpr hxB
    omega

/-- Witness for C2: source A adds id 1; source B's first page repeats id 1. -/
theorem cross_source_dedup_witness :
    (fetchAPI [Except.ok ⟨some [⟨1, "a", none⟩], none⟩]
        (loadData FileContent.absent).2).duplicateCount + 1
      ≤ (processTarget FileContent.absent
          [[Except.ok ⟨some [⟨1, "a", none⟩], none⟩],
            Except.ok (⟨some [⟨1, "b", none⟩], none⟩ : Page) :: []] "t").dupTotal ∧
    List.count 1 ((processTarget FileContent.absent
        [[Except.ok ⟨some [⟨1, "a", none⟩], none⟩],
          Except.ok (⟨some [⟨1, "b", none⟩], none⟩ : Page) :: []] "t").doc.data.map
        PersistedRecord.id) ≤ 1 :=
  cross_source_dedup FileContent.absent [Except.ok ⟨some [⟨1, "a", none⟩], none⟩]
    ⟨some [⟨1, "b", none⟩], none⟩ [] "t" 1 (by decide) (by decide)

end CatalogSniper
